import Mathlib

/-!
SoftRender `Source/Maths/Maths.h`: vectors, matrices and the cofactor determinant.

A shallow embedding of the generic `vec<dim, T>` / `mat<nrows, ncols, T>` family of
`Maths.h` and of the recursive determinant helper `dt<dim, T>`, followed by the
properties of the operator algebra.

Modelling conventions.

* A `vec<dim, T>` is modelled by the values its `operator[]` returns, a function
  `Fin dim → T`; the bound of `Fin` is the `assert(i < dim)` of `operator[]`.  The
  specialisation `vec<3, T>` with its named fields is the structure `vec3`, with the
  `operator[]` of the source as `vec3.index`.
* Where a property is about the assertion itself, the subscript takes an arbitrary `uint`
  and returns an `Option`, `none` being the failed assertion (`vec.subscript`,
  `vec2.subscript`, `vec3.subscript`, `vec4.subscript`, `mat.read`).
* A `mat<nrows, ncols, T>` is its array of rows, `Fin nrows → vec ncols T`.
* Every loop of the header has the shape `for (uint i = n; i--; body)`; it is
  `loopDown n body`, which runs the body at `n - 1`, `n - 2`, ..., `0` in that order.
* A write `v[i] = a` is `Function.update v i a`; a write `m[i][j] = a` is `mat.set`.
* A template that the header can only instantiate from some dimension on takes that bound
  as an argument: `dt.det` and `mat.det` take `0 < dim`; `mat.cofactor`, `mat.adjugate`,
  `mat.invert_transpose` and `mat.invert` take `1 < dim`, since they need the determinant
  of a minor of dimension `dim - 1`.
* The scalar type `T` is exact.  `T()` and the literal `0` are `0`, the conversion of
  `true` or `1` is `1`, of `-1` is `-1`.  A quotient `a / b` of scalars is defined
  for a non-zero divisor only (`scalarDiv`), so code that divides returns an `Option`.
-/

namespace SoftRender

/-! ## Loops -/

/-- The remaining iterations of `for (uint i = n; i--; body)` once the counter holds `k`:
the test `i--` succeeds when `k` is not zero, the body runs with `i = k - 1`, and the loop
goes on from `k - 1`. -/
def loopFrom {σ : Type} (n : Nat) (body : Fin n → σ → σ) : (k : Nat) → k ≤ n → σ → σ
  | 0, _, s => s
  | k + 1, h, s => loopFrom n body k (Nat.le_of_succ_le h) (body ⟨k, h⟩ s)

/-- The loop `for (uint i = n; i--; body)` run on the state `s`. -/
def loopDown {σ : Type} (n : Nat) (body : Fin n → σ → σ) (s : σ) : σ :=
  loopFrom n body n (Nat.le_refl n) s

/-! ## Vectors -/

/-- A `vec<dim, T>`, seen through `operator[]`. -/
abbrev vec (dim : Nat) (T : Type) : Type := Fin dim → T

/-- The default constructor `vec()`: every slot is `T()`. -/
def vec.zero {dim : Nat} {T : Type} [Zero T] : vec dim T := fun _ => 0

/-- The specialisation `vec<3, T>` with the named fields `x`, `y`, `z`. -/
structure vec3 (T : Type) where
  x : T
  y : T
  z : T
deriving DecidableEq

/-- The `operator[]` of `vec<3, T>`: `i <= 0 ? x : (1 == i ? y : z)`, under `assert(i < 3)`. -/
def vec3.index {T : Type} (v : vec3 T) (i : Fin 3) : T :=
  if i.val ≤ 0 then v.x else (if 1 = i.val then v.y else v.z)

/-- The dot product `operator*(const vec<dim, T>&, const vec<dim, T>&)`. -/
def vec.dot {dim : Nat} {T : Type} [Zero T] [Add T] [Mul T] (lhs rhs : vec dim T) : T :=
  loopDown dim (fun i ret => ret + lhs i * rhs i) 0

/-- The sum `operator+(vec<dim, T>, const vec<dim, T>&)`: `lhs[i] += rhs[i]`. -/
def vec.add {dim : Nat} {T : Type} [Add T] (lhs rhs : vec dim T) : vec dim T :=
  loopDown dim (fun i lhs => Function.update lhs i (lhs i + rhs i)) lhs

/-- The difference `operator-(vec<dim, T>, const vec<dim, T>&)`: `lhs[i] -= rhs[i]`. -/
def vec.sub {dim : Nat} {T : Type} [Sub T] (lhs rhs : vec dim T) : vec dim T :=
  loopDown dim (fun i lhs => Function.update lhs i (lhs i - rhs i)) lhs

/-- The scaling `operator*(vec<dim, T>, const U&)`, with `U = T`: `lhs[i] *= rhs`. -/
def vec.mulScalar {dim : Nat} {T : Type} [Mul T] (lhs : vec dim T) (rhs : T) : vec dim T :=
  loopDown dim (fun i lhs => Function.update lhs i (lhs i * rhs)) lhs

/-- The quotient `a / b` of two exact scalars; it has no value when `b` is zero. -/
def scalarDiv {T : Type} [Zero T] [Div T] [DecidableEq T] (a b : T) : Option T :=
  if b = 0 then none else some (a / b)

/-- The division `operator/(vec<dim, T>, const U&)`, with `U = T`: `lhs[i] /= rhs`. -/
def vec.divScalar {dim : Nat} {T : Type} [Zero T] [Div T] [DecidableEq T]
    (lhs : vec dim T) (rhs : T) : Option (vec dim T) :=
  loopDown dim
    (fun i st => st.bind (fun lhs => (scalarDiv (lhs i) rhs).map (fun q => Function.update lhs i q)))
    (some lhs)

/-- The cross product `cross(vec<3, T>, vec<3, T>)`. -/
def cross {T : Type} [Mul T] [Sub T] (v1 v2 : vec3 T) : vec3 T :=
  vec3.mk (v1.y * v2.z - v1.z * v2.y) (v1.z * v2.x - v1.x * v2.z) (v1.x * v2.y - v1.y * v2.x)

/-! ## Matrices -/

/-- A `mat<nrows, ncols, T>`: the array `rows` of `nrows` vectors `vec<ncols, T>`. -/
abbrev mat (nrows ncols : Nat) (T : Type) : Type := Fin nrows → vec ncols T

/-- The default constructor `mat()`: every row is default constructed. -/
def mat.zero {nrows ncols : Nat} {T : Type} [Zero T] : mat nrows ncols T := fun _ => vec.zero

/-- The write `ret[i][j] = a`. -/
def mat.set {nrows ncols : Nat} {T : Type} (ret : mat nrows ncols T)
    (i : Fin nrows) (j : Fin ncols) (a : T) : mat nrows ncols T :=
  Function.update ret i (Function.update (ret i) j a)

/-- The column `mat::col(id)`: `ret[i] = rows[i][id]`, under `assert(id < ncols)`. -/
def mat.col {nrows ncols : Nat} {T : Type} [Zero T] (m : mat nrows ncols T) (id : Fin ncols) :
    vec nrows T :=
  loopDown nrows (fun i ret => Function.update ret i (m i id)) vec.zero

/-- The factory `mat::identity()`: `ret[i][j] = (i == j)`. -/
def mat.identity (nrows ncols : Nat) {T : Type} [Zero T] [One T] : mat nrows ncols T :=
  loopDown nrows
    (fun i ret => loopDown ncols (fun j ret => mat.set ret i j (if i.val = j.val then 1 else 0)) ret)
    mat.zero

/-- The source index `i < row ? i : i + 1` of `get_minor`, for a loop counter `i` below
`n - 1`; it stays below `n`. -/
def minorIndex (n : Nat) (i : Fin (n - 1)) (row : Nat) : Fin n :=
  ⟨if i.val < row then i.val else i.val + 1, by have := i.isLt; split <;> omega⟩

/-- The minor `mat::get_minor(row, col)`:
`ret[i][j] = rows[i < row ? i : i + 1][j < col ? j : j + 1]`, a `mat<nrows - 1, ncols - 1, T>`.
The arguments are any `uint`, not only indices of the matrix.  The properties below use it
for `nrows, ncols ≥ 1`, where `nrows - 1` and `ncols - 1` do not wrap around. -/
def mat.get_minor {nrows ncols : Nat} {T : Type} [Zero T] (m : mat nrows ncols T)
    (row col : Nat) : mat (nrows - 1) (ncols - 1) T :=
  loopDown (nrows - 1)
    (fun i ret => loopDown (ncols - 1)
      (fun j ret => mat.set ret i j (m (minorIndex nrows i row) (minorIndex ncols j col))) ret)
    mat.zero

/-- The helper `dt<dim, T>::det`, for the dimensions at which the header can instantiate it,
`dim ≥ 1`.  Dimension `1` is the specialisation `dt<1, T>`, which returns `src[0][0]`.  From
dimension `2` on it is the generic template,
`T ret = 0; for (uint i = dim; i--; ret += src[0][i] * src.cofactor(0, i)); return ret;`
where `src.cofactor(row, col)` is `get_minor(row, col).det() * ((row + col) % 2 ? -1 : 1)`
and `det()` of the minor is `dt<dim - 1, T>::det`.  There is no `dt<0, T>`: the generic body
would need `mat<0, 0, T>::cofactor`, whose minor is a `mat<0u - 1, 0u - 1, T>`, so the
argument `0 < dim` leaves dimension `0` without a value. -/
def dt.det {T : Type} [Zero T] [One T] [Neg T] [Add T] [Mul T] :
    (dim : Nat) → 0 < dim → mat dim dim T → T
  | 0, h, _ => absurd h (Nat.lt_irrefl 0)
  | 1, _, src => src 0 0
  | n + 2, _, src =>
    loopDown (n + 2)
      (fun i ret => ret + src 0 i *
        (dt.det (n + 1) (Nat.succ_pos n) (mat.get_minor src 0 i.val)
          * (if (0 + i.val) % 2 ≠ 0 then -1 else 1)))
      0

/-- The determinant `mat::det()`, for a square matrix (`assert(nrows == ncols)`) of a
dimension at which `dt<ncols, T>` exists. -/
def mat.det {n : Nat} {T : Type} [Zero T] [One T] [Neg T] [Add T] [Mul T] (m : mat n n T)
    (h : 0 < n) : T :=
  dt.det n h m

/-- The cofactor `mat::cofactor(row, col)`:
`get_minor(row, col).det() * ((row + col) % 2 ? -1 : 1)`.  The minor has dimension `n - 1`,
so the method exists from dimension `2` on only. -/
def mat.cofactor {n : Nat} {T : Type} [Zero T] [One T] [Neg T] [Add T] [Mul T] (m : mat n n T)
    (h : 1 < n) (row col : Nat) : T :=
  mat.det (mat.get_minor m row col) (Nat.sub_pos_of_lt h)
    * (if (row + col) % 2 ≠ 0 then -1 else 1)

/-- The matrix of cofactors `mat::adjugate()`: `ret[i][j] = cofactor(i, j)`, from
dimension `2` on as `cofactor`. -/
def mat.adjugate {n : Nat} {T : Type} [Zero T] [One T] [Neg T] [Add T] [Mul T] (m : mat n n T)
    (h : 1 < n) : mat n n T :=
  loopDown n
    (fun i ret => loopDown n (fun j ret => mat.set ret i j (mat.cofactor m h i.val j.val)) ret)
    mat.zero

/-- The division `operator/(mat<nrows, ncols, T>, const T&)`: `lhs[i] = lhs[i] / rhs`. -/
def mat.divScalar {nrows ncols : Nat} {T : Type} [Zero T] [Div T] [DecidableEq T]
    (lhs : mat nrows ncols T) (rhs : T) : Option (mat nrows ncols T) :=
  loopDown nrows
    (fun i st => st.bind (fun lhs => (vec.divScalar (lhs i) rhs).map (fun r => Function.update lhs i r)))
    (some lhs)

/-- The method `mat::transpose()`: `ret[i] = this->col(i)`. -/
def mat.transpose {nrows ncols : Nat} {T : Type} [Zero T] (m : mat nrows ncols T) :
    mat ncols nrows T :=
  loopDown ncols (fun i ret => Function.update ret i (mat.col m i)) mat.zero

/-- The product `operator*(const mat<R1, C1, T>&, const mat<C1, C2, T>&)`:
`ret[i][j] = lhs[i] * rhs.col(j)`. -/
def mat.mul {R1 C1 C2 : Nat} {T : Type} [Zero T] [Add T] [Mul T]
    (lhs : mat R1 C1 T) (rhs : mat C1 C2 T) : mat R1 C2 T :=
  loopDown R1
    (fun i ret => loopDown C2 (fun j ret => mat.set ret i j (vec.dot (lhs i) (mat.col rhs j))) ret)
    mat.zero

/-! ## Checked subscripts, `embed`, `proj`, `setcol` -/

/-- The `operator[]` of the generic `vec<dim, T>` at an arbitrary `uint`:
`assert(i < dim); return data[i];`.  A failed assertion is `none`. -/
def vec.subscript {dim : Nat} {T : Type} (v : vec dim T) (i : Nat) : Option T :=
  if h : i < dim then some (v ⟨i, h⟩) else none

/-- The specialisation `vec<2, T>` with the named fields `x`, `y`. -/
structure vec2 (T : Type) where
  x : T
  y : T
deriving DecidableEq

/-- The specialisation `vec<4, T>` with the named fields `x`, `y`, `z`, `w`. -/
structure vec4 (T : Type) where
  x : T
  y : T
  z : T
  w : T
deriving DecidableEq

/-- The `operator[]` of `vec<2, T>` at an arbitrary `uint`:
`assert(i < 2); return i <= 0 ? x : y;`. -/
def vec2.subscript {T : Type} (v : vec2 T) (i : Nat) : Option T :=
  if i < 2 then some (if i ≤ 0 then v.x else v.y) else none

/-- The `operator[]` of `vec<3, T>` at an arbitrary `uint`:
`assert(i < 3); return i <= 0 ? x : (1 == i ? y : z);`. -/
def vec3.subscript {T : Type} (v : vec3 T) (i : Nat) : Option T :=
  if i < 3 then some (if i ≤ 0 then v.x else (if 1 = i then v.y else v.z)) else none

/-- The `operator[]` of `vec<4, T>` at an arbitrary `uint`:
`assert(i < 4); return i <= 0 ? x : (1 == i ? y : (2 == i ? z : w));`. -/
def vec4.subscript {T : Type} (v : vec4 T) (i : Nat) : Option T :=
  if i < 4 then some (if i ≤ 0 then v.x else (if 1 = i then v.y else (if 2 = i then v.z else v.w)))
  else none

/-- The function `embed<len>(v, fill)`: `ret[i] = (i < dim ? v[i] : fill)`.  The read `v[i]`
happens under `i < dim` only. -/
def embed (len : Nat) {dim : Nat} {T : Type} [Zero T] (v : vec dim T) (fill : T) : vec len T :=
  loopDown len
    (fun i ret => Function.update ret i (if h : i.val < dim then v ⟨i.val, h⟩ else fill))
    vec.zero

/-- The function `proj<len>(v)`: `ret[i] = v[i]`.  The read `v[i]` asserts `i < dim`, so the
result is `none` as soon as one read fails. -/
def proj (len : Nat) {dim : Nat} {T : Type} [Zero T] (v : vec dim T) : Option (vec len T) :=
  loopDown len
    (fun i st => st.bind (fun ret => (vec.subscript v i.val).map (fun a => Function.update ret i a)))
    (some vec.zero)

/-- The method `mat::setcol(id, v)`: `rows[i][id] = v[i]`, under `assert(id < ncols)`. -/
def mat.setcol {nrows ncols : Nat} {T : Type} (m : mat nrows ncols T) (id : Fin ncols)
    (v : vec nrows T) : mat nrows ncols T :=
  loopDown nrows (fun i rows => mat.set rows i id (v i)) m

/-- The read `rows[a][b]` at arbitrary `uint` indices: the row index must be below `nrows`
and the `operator[]` of the row asserts `b < ncols`. -/
def mat.read {nrows ncols : Nat} {T : Type} (m : mat nrows ncols T) (a b : Nat) : Option T :=
  if ha : a < nrows then vec.subscript (m ⟨a, ha⟩) b else none

/-- The minor `mat::get_minor(row, col)` with every read of `rows` checked:
`ret[i][j] = rows[i < row ? i : i + 1][j < col ? j : j + 1]`, and `none` as soon as one
index is out of bounds. -/
def mat.get_minor_checked {nrows ncols : Nat} {T : Type} [Zero T] (m : mat nrows ncols T)
    (row col : Nat) : Option (mat (nrows - 1) (ncols - 1) T) :=
  loopDown (nrows - 1)
    (fun i st => loopDown (ncols - 1)
      (fun j st => st.bind (fun ret =>
        (mat.read m (if i.val < row then i.val else i.val + 1)
          (if j.val < col then j.val else j.val + 1)).map (fun a => mat.set ret i j a)))
      st)
    (some mat.zero)

/-! ## The permutation-sum determinant -/

/-- The Leibniz determinant of a square matrix: the sum over the permutations `p` of the
indices of `sign(p)` times the product of the entries `M[i][p(i)]`. -/
def leibnizDet {N : Nat} {T : Type} [CommRing T] (M : mat N N T) : T :=
  ∑ p : Equiv.Perm (Fin N), ((Equiv.Perm.sign p : ℤ) : T) * ∏ i : Fin N, M i (p i)

/-! ## Loop lemmas -/

/-- A loop whose body at `i` rewrites slot `i` from its old value: after the iterations below `k`,
the slots below `k` are rewritten and the others are untouched. -/
theorem loopFrom_update {n : Nat} {α : Type} (g : Fin n → α → α) :
    ∀ (k : Nat) (h : k ≤ n) (s : Fin n → α) (j : Fin n),
      loopFrom n (fun i s => Function.update s i (g i (s i))) k h s j
        = if j.val < k then g j (s j) else s j := by
  intro k
  induction k with
  | zero => intro h s j; simp [loopFrom]
  | succ k ih =>
    intro h s j
    rw [loopFrom, ih]
    by_cases hj : j.val < k
    · have hne : j ≠ ⟨k, h⟩ := fun e => by rw [e] at hj; exact absurd hj (lt_irrefl _)
      simp [hj, Nat.lt_succ_of_lt hj, Function.update_noteq hne]
    · by_cases hk : j.val = k
      · have he : j = ⟨k, h⟩ := Fin.ext hk
        subst he
        simp
      · have hne : j ≠ ⟨k, h⟩ := fun e => hk (by rw [e])
        have : ¬ j.val < k + 1 := by omega
        simp [hj, this, Function.update_noteq hne]

/-- A full loop whose body at `i` rewrites slot `i` from its old value rewrites every slot once. -/
theorem loopDown_update {n : Nat} {α : Type} (g : Fin n → α → α) (s : Fin n → α) (j : Fin n) :
    loopDown n (fun i s => Function.update s i (g i (s i))) s j = g j (s j) := by
  rw [loopDown, loopFrom_update]
  simp [j.isLt]

/-- An inner loop of writes `ret[i][j] = e j` only rewrites row `i`. -/
theorem loopFrom_set_row {r c : Nat} {T : Type} (i : Fin r) (e : Fin c → T) :
    ∀ (k : Nat) (h : k ≤ c) (ret : mat r c T),
      loopFrom c (fun j ret => mat.set ret i j (e j)) k h ret
        = Function.update ret i (loopFrom c (fun j row => Function.update row j (e j)) k h (ret i)) := by
  intro k
  induction k with
  | zero => intro h ret; simp [loopFrom]
  | succ k ih =>
    intro h ret
    rw [loopFrom, ih, loopFrom]
    simp [mat.set]

/-- The nested loops `for i-- for j-- ret[i][j] = e i j` produce the matrix with entries `e i j`,
whatever `ret` held before. -/
theorem loopDown_fill {r c : Nat} {T : Type} (e : Fin r → Fin c → T) (init : mat r c T) :
    loopDown r (fun i ret => loopDown c (fun j ret => mat.set ret i j (e i j)) ret) init = e := by
  have h1 : (fun (i : Fin r) (ret : mat r c T) =>
        loopDown c (fun j ret => mat.set ret i j (e i j)) ret)
      = (fun i ret => Function.update ret i
          ((fun i row => loopDown c (fun j row => Function.update row j ((fun j _ => e i j) j (row j))) row) i (ret i))) := by
    funext i ret
    simp only [loopDown]
    rw [loopFrom_set_row]
  rw [h1]
  funext i j
  rw [loopDown_update]
  exact loopDown_update (fun j _ => e i j) (init i) j

/-- An accumulation loop `ret += f i` adds the terms of the indices below `k`. -/
theorem loopFrom_sum {n : Nat} {T : Type} [AddCommMonoid T] (f : Fin n → T) :
    ∀ (k : Nat) (h : k ≤ n) (s : T),
      loopFrom n (fun i ret => ret + f i) k h s
        = s + ∑ i in Finset.univ.filter (fun i : Fin n => i.val < k), f i := by
  intro k
  induction k with
  | zero => intro h s; simp [loopFrom]
  | succ k ih =>
    intro h s
    rw [loopFrom, ih]
    have hset : Finset.univ.filter (fun i : Fin n => i.val < k + 1)
        = insert (⟨k, h⟩ : Fin n) (Finset.univ.filter (fun i : Fin n => i.val < k)) := by
      ext i
      simp only [Finset.mem_filter, Finset.mem_univ, true_and, Finset.mem_insert, Fin.ext_iff]
      omega
    rw [hset, Finset.sum_insert (by simp), add_assoc]

/-- A full accumulation loop `ret += f i` adds every term to the initial value. -/
theorem loopDown_sum {n : Nat} {T : Type} [AddCommMonoid T] (f : Fin n → T) (s : T) :
    loopDown n (fun i ret => ret + f i) s = s + ∑ i : Fin n, f i := by
  rw [loopDown, loopFrom_sum]
  congr 1
  apply Finset.sum_congr _ (fun _ _ => rfl)
  ext i; simp [i.isLt]



/-! ## Entry by entry: what each operation returns -/

/-- The dot product is the sum of the products of the components. -/
theorem vec.dot_eq_sum {dim : Nat} {T : Type} [NonUnitalNonAssocSemiring T] (lhs rhs : vec dim T) :
    vec.dot lhs rhs = ∑ i : Fin dim, lhs i * rhs i := by
  rw [vec.dot, loopDown_sum, zero_add]

/-- Component `i` of `lhs + rhs`. -/
theorem vec.add_apply {dim : Nat} {T : Type} [Add T] (lhs rhs : vec dim T) (i : Fin dim) :
    vec.add lhs rhs i = lhs i + rhs i :=
  loopDown_update (fun i a => a + rhs i) lhs i

/-- Component `i` of `lhs - rhs`. -/
theorem vec.sub_apply {dim : Nat} {T : Type} [Sub T] (lhs rhs : vec dim T) (i : Fin dim) :
    vec.sub lhs rhs i = lhs i - rhs i :=
  loopDown_update (fun i a => a - rhs i) lhs i

/-- Component `i` of `lhs * rhs` for a scalar `rhs`. -/
theorem vec.mulScalar_apply {dim : Nat} {T : Type} [Mul T] (lhs : vec dim T) (rhs : T)
    (i : Fin dim) : vec.mulScalar lhs rhs i = lhs i * rhs :=
  loopDown_update (fun _ a => a * rhs) lhs i

/-- Component `i` of `col(id)` is `rows[i][id]`. -/
theorem mat.col_apply {nrows ncols : Nat} {T : Type} [Zero T] (m : mat nrows ncols T)
    (id : Fin ncols) (i : Fin nrows) : mat.col m id i = m i id :=
  loopDown_update (fun i _ => m i id) vec.zero i

/-- Entry `(j, i)` of `transpose()` is entry `(i, j)` of the matrix. -/
theorem mat.transpose_apply {nrows ncols : Nat} {T : Type} [Zero T] (m : mat nrows ncols T)
    (j : Fin ncols) (i : Fin nrows) : mat.transpose m j i = m i j := by
  have h := loopDown_update (fun (i : Fin ncols) (_ : vec nrows T) => mat.col m i) mat.zero j
  rw [mat.transpose, h, mat.col_apply]

/-- Entry `(i, j)` of `identity()`. -/
theorem mat.identity_apply {nrows ncols : Nat} {T : Type} [Zero T] [One T]
    (i : Fin nrows) (j : Fin ncols) :
    mat.identity nrows ncols (T := T) i j = if i.val = j.val then 1 else 0 := by
  rw [mat.identity, loopDown_fill]

/-- Entry `(i, j)` of `get_minor(row, col)`. -/
theorem mat.get_minor_apply {nrows ncols : Nat} {T : Type} [Zero T] (m : mat nrows ncols T)
    (row col : Nat) (i : Fin (nrows - 1)) (j : Fin (ncols - 1)) :
    mat.get_minor m row col i j = m (minorIndex nrows i row) (minorIndex ncols j col) := by
  rw [mat.get_minor, loopDown_fill]

/-- Entry `(i, j)` of `adjugate()` is `cofactor(i, j)`. -/
theorem mat.adjugate_apply {n : Nat} {T : Type} [Zero T] [One T] [Neg T] [Add T] [Mul T]
    (m : mat n n T) (h : 1 < n) (i j : Fin n) :
    mat.adjugate m h i j = mat.cofactor m h i.val j.val := by
  rw [mat.adjugate, loopDown_fill]

/-- Entry `(i, j)` of a matrix product is the sum over `k` of `lhs[i][k] * rhs[k][j]`. -/
theorem mat.mul_apply {R1 C1 C2 : Nat} {T : Type} [NonUnitalNonAssocSemiring T]
    (lhs : mat R1 C1 T) (rhs : mat C1 C2 T) (i : Fin R1) (j : Fin C2) :
    mat.mul lhs rhs i j = ∑ k : Fin C1, lhs i k * rhs k j := by
  rw [mat.mul, loopDown_fill, vec.dot_eq_sum]
  exact Finset.sum_congr rfl (fun k _ => by rw [mat.col_apply])

/-- A loop that maps a step under `Option` keeps a present state present. -/
theorem loopFrom_map_some {n : Nat} {σ : Type} (f : Fin n → σ → σ) :
    ∀ (k : Nat) (h : k ≤ n) (s : σ),
      loopFrom n (fun i st => Option.map (f i) st) k h (some s) = some (loopFrom n f k h s) := by
  intro k
  induction k with
  | zero => intro h s; rfl
  | succ k ih =>
    intro h s
    rw [loopFrom, loopFrom, Option.map_some', ih]

/-- Dividing a vector by a non-zero scalar divides every component. -/
theorem vec.divScalar_of_ne_zero {dim : Nat} {T : Type} [Zero T] [Div T] [DecidableEq T]
    (lhs : vec dim T) (rhs : T) (hr : rhs ≠ 0) :
    vec.divScalar lhs rhs = some (fun i => lhs i / rhs) := by
  have hb : (fun (i : Fin dim) (st : Option (vec dim T)) => st.bind (fun lhs =>
        (scalarDiv (lhs i) rhs).map (fun q => Function.update lhs i q)))
      = (fun i st => Option.map (fun lhs => Function.update lhs i (lhs i / rhs)) st) := by
    funext i st
    cases st <;> simp [scalarDiv, hr]
  rw [vec.divScalar, hb, loopDown, loopFrom_map_some]
  congr 1
  funext i
  exact loopDown_update (fun _ a => a / rhs) lhs i

/-- The sign `(k % 2 ? -1 : 1)` of the cofactor is `(-1) ^ k`. -/
theorem sign_eq_neg_one_pow {T : Type} [Ring T] (k : Nat) :
    (if k % 2 ≠ 0 then (-1 : T) else 1) = (-1) ^ k := by
  by_cases h : k % 2 = 0
  · rw [if_neg (not_not.mpr h), (Nat.even_iff.mpr h).neg_one_pow]
  · rw [if_pos h, (Nat.odd_iff.mpr (by omega)).neg_one_pow]

/-- The index `i < p ? i : i + 1` skips `p`. -/
theorem minorIndex_eq_succAbove {n : Nat} (p : Fin (n + 1)) (i : Fin n) :
    minorIndex (n + 1) i p.val = p.succAbove i := by
  apply Fin.ext
  simp only [minorIndex, Fin.succAbove, Fin.lt_def, Fin.coe_castSucc]
  split <;> simp

/-- For in-range arguments `get_minor(r, c)` deletes row `r` and column `c`. -/
theorem mat.get_minor_eq_submatrix {n : Nat} {T : Type} [Zero T] (m : mat (n + 1) (n + 1) T)
    (r c : Fin (n + 1)) :
    mat.get_minor m r.val c.val = fun (i j : Fin n) => m (r.succAbove i) (c.succAbove j) := by
  funext i j
  rw [mat.get_minor_apply, minorIndex_eq_succAbove, minorIndex_eq_succAbove]

/-- The generic `dt<dim, T>::det` at a dimension above one is the row-0 expansion over the
cofactors. -/
theorem dt.det_succ_succ {n : Nat} {T : Type} [Ring T] (src : mat (n + 2) (n + 2) T)
    (h : 0 < n + 2) (h2 : 1 < n + 2) :
    dt.det (n + 2) h src = ∑ i : Fin (n + 2), src 0 i * mat.cofactor src h2 0 i.val := by
  rw [dt.det, loopDown_sum, zero_add]
  rfl

/-- The cofactor as a signed determinant of a submatrix, once `dt::det` is known to be the
determinant one dimension down. -/
theorem mat.cofactor_eq_of_det {n : Nat} {T : Type} [CommRing T]
    (ih : ∀ (h : 0 < n + 1) (m : mat (n + 1) (n + 1) T),
      dt.det (n + 1) h m = Matrix.det (Matrix.of m))
    (m : mat (n + 2) (n + 2) T) (h2 : 1 < n + 2) (i j : Fin (n + 2)) :
    mat.cofactor m h2 i.val j.val
      = (-1) ^ (i.val + j.val) * Matrix.det ((Matrix.of m).submatrix i.succAbove j.succAbove) := by
  rw [mat.cofactor, sign_eq_neg_one_pow, mul_comm]
  congr 1
  show dt.det (n + 1) (Nat.succ_pos n) (mat.get_minor m i.val j.val) = _
  rw [ih, mat.get_minor_eq_submatrix]
  rfl

/-- From dimension one on, `dt<dim, T>::det` is the determinant. -/
theorem dt.det_eq_matrix_det {T : Type} [CommRing T] :
    ∀ (n : Nat) (h : 0 < n + 1) (m : mat (n + 1) (n + 1) T),
      dt.det (n + 1) h m = Matrix.det (Matrix.of m) := by
  intro n
  induction n with
  | zero => intro h m; simp [dt.det, Matrix.det_fin_one]
  | succ n ih =>
    intro h m
    rw [dt.det_succ_succ m h (Nat.succ_lt_succ (Nat.succ_pos n)), Matrix.det_succ_row_zero]
    refine Finset.sum_congr rfl (fun i _ => ?_)
    have hc := mat.cofactor_eq_of_det ih m (Nat.succ_lt_succ (Nat.succ_pos n)) 0 i
    rw [Fin.val_zero, zero_add] at hc
    rw [hc, Matrix.of_apply, Fin.succAbove_zero]
    ring

/-- From dimension one on, `mat::det()` is the determinant. -/
theorem mat.det_eq_classical {n : Nat} {T : Type} [CommRing T] (m : mat (n + 1) (n + 1) T)
    (h : 0 < n + 1) : mat.det m h = Matrix.det (Matrix.of m) :=
  dt.det_eq_matrix_det n h m

/-- From dimension two on, `cofactor(i, j)` is entry `(j, i)` of the classical adjugate. -/
theorem mat.cofactor_eq_adjugate {n : Nat} {T : Type} [CommRing T] (m : mat (n + 2) (n + 2) T)
    (h : 1 < n + 2) (i j : Fin (n + 2)) :
    mat.cofactor m h i.val j.val = Matrix.adjugate (Matrix.of m) j i := by
  rw [Matrix.adjugate_fin_succ_eq_det_submatrix, mat.cofactor_eq_of_det (dt.det_eq_matrix_det n)]

/-- The minor of the identity obtained by deleting row 0 and column 0 is the identity. -/
theorem mat.get_minor_identity {n : Nat} {T : Type} [Zero T] [One T] :
    mat.get_minor (mat.identity (n + 2) (n + 2) (T := T)) 0 0 = mat.identity (n + 1) (n + 1) := by
  funext i j
  have h := mat.get_minor_apply (mat.identity (n + 2) (n + 2) (T := T)) 0 0 i j
  rw [h, mat.identity_apply]
  show _ = mat.identity (n + 1) (n + 1) i j
  rw [mat.identity_apply]
  simp [minorIndex]

/-- From dimension one on, `dt<dim, T>::det` of the identity is one, in any ring. -/
theorem dt.det_of_identity {T : Type} [Ring T] :
    ∀ (n : Nat) (h : 0 < n + 1), dt.det (n + 1) h (mat.identity (n + 1) (n + 1) (T := T)) = 1 := by
  intro n
  induction n with
  | zero => intro h; simp [dt.det, mat.identity_apply]
  | succ n ih =>
    intro h
    rw [dt.det_succ_succ _ h (Nat.succ_lt_succ (Nat.succ_pos n)),
      Finset.sum_eq_single (0 : Fin (n + 2))]
    · rw [mat.identity_apply, if_pos rfl, one_mul, mat.cofactor, Fin.val_zero]
      have hm : mat.det (mat.get_minor (mat.identity (n + 2) (n + 2) (T := T)) 0 0)
          (Nat.sub_pos_of_lt (Nat.succ_lt_succ (Nat.succ_pos n))) = 1 := by
        show dt.det (n + 1) (Nat.succ_pos n) _ = 1
        rw [mat.get_minor_identity, ih]
      rw [hm]
      simp
    · intro b _ hb
      have hne : ¬ ((0 : Fin (n + 2)).val = b.val) := fun e => hb (Fin.ext e.symm)
      rw [mat.identity_apply, if_neg hne, zero_mul]
    · intro h
      exact absurd (Finset.mem_univ _) h

/-- Claim C3: `det()` follows the row-0 Laplace recursion.  For a `1×1` matrix it is the
single entry `src[0][0]`; for every `N > 1` and every `N×N` matrix `src` it is the sum over
`i < N` of `src[0][i] * src.cofactor(0, i)`, where `cofactor(r, c)` is
`get_minor(r, c).det() * (-1)^(r + c)`; and `{{1, 2}, {3, 4}}` has determinant `-2`. -/
theorem det_row_zero_laplace {T : Type} [Ring T] (N : Nat) (hN : 1 < N) (src : mat N N T)
    (single : mat 1 1 T) (row col : Nat) :
    mat.det single Nat.one_pos = single 0 0
      ∧ mat.det src (Nat.zero_lt_of_lt hN)
          = ∑ i : Fin N, src ⟨0, Nat.lt_of_succ_lt hN⟩ i * mat.cofactor src hN 0 i.val
      ∧ mat.cofactor src hN row col
          = mat.det (mat.get_minor src row col) (Nat.sub_pos_of_lt hN) * (-1) ^ (row + col)
      ∧ mat.det (![![1, 2], ![3, 4]] : mat 2 2 T) Nat.zero_lt_two = -2 := by
  refine ⟨rfl, ?_, ?_, ?_⟩
  · obtain ⟨n, rfl⟩ : ∃ n, N = n + 2 := ⟨N - 2, by omega⟩
    exact dt.det_succ_succ src _ hN
  · rw [mat.cofactor, sign_eq_neg_one_pow]
  · simp [mat.det, dt.det, loopDown, loopFrom, mat.get_minor, mat.set, minorIndex, mat.zero,
      vec.zero]
    norm_num

/-- Claim C3 at the integer matrices `{{2, 0, 1}, {1, 3, 2}, {1, 1, 1}}` and `{{5}}`. -/
theorem det_row_zero_laplace_witness :
    1 < 3
      ∧ mat.det (![![5]] : mat 1 1 ℤ) Nat.one_pos = 5
      ∧ mat.det (![![2, 0, 1], ![1, 3, 2], ![1, 1, 1]] : mat 3 3 ℤ) (Nat.succ_pos 2)
          = ∑ i : Fin 3, (![![2, 0, 1], ![1, 3, 2], ![1, 1, 1]] : mat 3 3 ℤ) 0 i
              * mat.cofactor (![![2, 0, 1], ![1, 3, 2], ![1, 1, 1]] : mat 3 3 ℤ)
                  (Nat.succ_lt_succ (Nat.succ_pos 1)) 0 i.val :=
  ⟨by decide,
    (det_row_zero_laplace 3 (by decide) (![![2, 0, 1], ![1, 3, 2], ![1, 1, 1]] : mat 3 3 ℤ)
      ![![5]] 0 0).1,
    (det_row_zero_laplace 3 (by decide) (![![2, 0, 1], ![1, 3, 2], ![1, 1, 1]] : mat 3 3 ℤ)
      ![![5]] 0 0).2.1⟩

/-- Claim C4: for every dimension `N ≥ 1` the determinant of the `N×N` identity matrix is
`1`. -/
theorem det_identity_eq_one {T : Type} [Ring T] (N : Nat) (hN : 1 ≤ N) :
    mat.det (mat.identity N N (T := T)) hN = 1 := by
  obtain ⟨n, rfl⟩ : ∃ n, N = n + 1 := ⟨N - 1, by omega⟩
  exact dt.det_of_identity n hN

/-- Claim C4 at dimension three over the integers. -/
theorem det_identity_eq_one_witness :
    1 ≤ 3 ∧ mat.det (mat.identity 3 3 (T := ℤ)) (Nat.succ_pos 2) = 1 :=
  ⟨by decide, det_identity_eq_one 3 (by decide)⟩

/-! ## The operator algebra -/

/-- Claim C5: `identity()` is a two-sided unit of the matrix product: for every square
`N×N` matrix `M`, `identity() * M` is `M` and `M * identity()` is `M`. -/
theorem identity_two_sided_unit {T : Type} [NonAssocSemiring T] (N : Nat) (M : mat N N T) :
    mat.mul (mat.identity N N) M = M ∧ mat.mul M (mat.identity N N) = M := by
  constructor
  · funext i j
    rw [mat.mul_apply, Finset.sum_eq_single i]
    · rw [mat.identity_apply, if_pos rfl, one_mul]
    · intro k _ hk
      rw [mat.identity_apply, if_neg (fun e => hk (Fin.ext e.symm)), zero_mul]
    · intro h
      exact absurd (Finset.mem_univ _) h
  · funext i j
    rw [mat.mul_apply, Finset.sum_eq_single j]
    · rw [mat.identity_apply, if_pos rfl, mul_one]
    · intro k _ hk
      rw [mat.identity_apply, if_neg (fun e => hk (Fin.ext e)), mul_zero]
    · intro h
      exact absurd (Finset.mem_univ _) h

/-- Claim C6: `transpose()` is an involution: for every `R×C` matrix `M`, square or not,
`M.transpose().transpose()` is `M`, where `transpose()` is the `C×R` matrix with
`result[j][i] = M[i][j]`. -/
theorem transpose_transpose_eq_self {T : Type} [Zero T] (R C : Nat) (M : mat R C T) :
    mat.transpose (mat.transpose M) = M
      ∧ ∀ (i : Fin R) (j : Fin C), mat.transpose M j i = M i j := by
  refine ⟨?_, fun i j => mat.transpose_apply M j i⟩
  funext i j
  rw [mat.transpose_apply, mat.transpose_apply]

/-- Claim C7: the cross product is orthogonal to both operands: for all 3D vectors `a`, `b`
over a commutative ring, the dot products `cross(a, b) * a` and `cross(a, b) * b` are `0`. -/
theorem cross_dot_operands_eq_zero {T : Type} [CommRing T] (a b : vec3 T) :
    vec.dot (cross a b).index a.index = 0 ∧ vec.dot (cross a b).index b.index = 0 := by
  constructor
  · rw [vec.dot_eq_sum, Fin.sum_univ_three]
    simp [vec3.index, cross]
    ring
  · rw [vec.dot_eq_sum, Fin.sum_univ_three]
    simp [vec3.index, cross]
    ring

/-- Claim C8: for `v1 = (x1, y1, z1)` and `v2 = (x2, y2, z2)`, `cross(v1, v2)` is
`(y1*z2 - z1*y2, z1*x2 - x1*z2, x1*y2 - y1*x2)`; in particular
`cross((1,0,0), (0,1,0))` is `(0,0,1)`. -/
theorem cross_right_handed_formula {T : Type} [Ring T] (x1 y1 z1 x2 y2 z2 : T) :
    cross (vec3.mk x1 y1 z1) (vec3.mk x2 y2 z2)
        = vec3.mk (y1 * z2 - z1 * y2) (z1 * x2 - x1 * z2) (x1 * y2 - y1 * x2)
      ∧ (cross (vec3.mk x1 y1 z1) (vec3.mk x2 y2 z2)).index 0 = y1 * z2 - z1 * y2
      ∧ (cross (vec3.mk x1 y1 z1) (vec3.mk x2 y2 z2)).index 1 = z1 * x2 - x1 * z2
      ∧ (cross (vec3.mk x1 y1 z1) (vec3.mk x2 y2 z2)).index 2 = x1 * y2 - y1 * x2
      ∧ cross (vec3.mk (1 : T) 0 0) (vec3.mk 0 1 0) = vec3.mk 0 0 1 := by
  refine ⟨rfl, ?_, ?_, ?_, ?_⟩
  · simp [vec3.index, cross]
  · simp [vec3.index, cross]
  · simp [vec3.index, cross]
  · simp [cross]

/-- Claim C9: vector subtraction undoes vector addition: for every dimension `N` and all
`N`-dimensional vectors `u`, `v` over exact scalars, `(u + v) - v` is `u`. -/
theorem add_then_sub_cancels {T : Type} [AddGroup T] (N : Nat) (u v : vec N T) :
    vec.sub (vec.add u v) v = u := by
  funext i
  rw [vec.sub_apply, vec.add_apply, add_sub_cancel_right]

/-- Claim C10: scalar division undoes scalar multiplication: for every dimension `N`, every
`N`-dimensional vector `v` and every scalar `s != 0` of an exact scalar type, `(v * s) / s`
is defined and is `v`. -/
theorem mulScalar_then_divScalar_cancels {T : Type} [DivisionRing T] [DecidableEq T] (N : Nat)
    (v : vec N T) (s : T) (hs : s ≠ 0) :
    vec.divScalar (vec.mulScalar v s) s = some v := by
  rw [vec.divScalar_of_ne_zero _ _ hs]
  congr 1
  funext i
  rw [vec.mulScalar_apply, mul_div_cancel_right₀ _ hs]

/-- Claim C10 at the rational vector `(1, 2, 3)` and the scalar `2`. -/
theorem mulScalar_then_divScalar_cancels_witness :
    (2 : ℚ) ≠ 0 ∧ vec.divScalar (vec.mulScalar (![1, 2, 3] : vec 3 ℚ) 2) 2 = some ![1, 2, 3] :=
  ⟨by norm_num, mulScalar_then_divScalar_cancels 3 _ 2 (by norm_num)⟩

/-! ## Lemmas on `embed`, `proj`, `setcol`, fold order and checked minors -/

/-- Component `i` of `embed<len>(v, fill)`. -/
theorem embed_apply {len dim : Nat} {T : Type} [Zero T] (v : vec dim T) (fill : T)
    (i : Fin len) :
    embed len v fill i = if h : i.val < dim then v ⟨i.val, h⟩ else fill :=
  loopDown_update (fun (i : Fin len) (_ : T) => if h : i.val < dim then v ⟨i.val, h⟩ else fill)
    vec.zero i

/-- When `len <= dim` every read of `proj<len>(v)` is in bounds and the result holds the first
`len` components of `v`. -/
theorem proj_of_le {len dim : Nat} {T : Type} [Zero T] (v : vec dim T) (hle : len ≤ dim) :
    proj len v = some (fun i => v ⟨i.val, lt_of_lt_of_le i.isLt hle⟩) := by
  have hb : (fun (i : Fin len) (st : Option (vec len T)) => st.bind (fun ret =>
        (vec.subscript v i.val).map (fun a => Function.update ret i a)))
      = (fun i st => Option.map
          (fun ret => Function.update ret i (v ⟨i.val, lt_of_lt_of_le i.isLt hle⟩)) st) := by
    funext i st
    have hi : i.val < dim := lt_of_lt_of_le i.isLt hle
    cases st <;> simp [vec.subscript, hi]
  rw [proj, hb, loopDown, loopFrom_map_some]
  congr 1
  funext i
  exact loopDown_update (fun (i : Fin len) (_ : T) => v ⟨i.val, lt_of_lt_of_le i.isLt hle⟩)
    vec.zero i

/-- Entry `(i, k)` after `setcol(id, v)`. -/
theorem mat.setcol_apply {nrows ncols : Nat} {T : Type} (m : mat nrows ncols T) (id : Fin ncols)
    (v : vec nrows T) (i : Fin nrows) (k : Fin ncols) :
    mat.setcol m id v i k = if k = id then v i else m i k := by
  have h := loopDown_update (fun (i : Fin nrows) (r : vec ncols T) => Function.update r id (v i))
    m i
  have hs : mat.setcol m id v
      = loopDown nrows (fun i s => Function.update s i
          ((fun (i : Fin nrows) (r : vec ncols T) => Function.update r id (v i)) i (s i))) m := rfl
  rw [hs, h]
  by_cases hk : k = id
  · subst hk; simp
  · simp [hk]

/-- The value of the index `i < p ? i : i + 1`. -/
theorem minorIndex_val (n : Nat) (i : Fin (n - 1)) (p : Nat) :
    (minorIndex n i p).val = if i.val < p then i.val else i.val + 1 := rfl

/-- The index `i < p ? i : i + 1` is never `p`. -/
theorem minorIndex_ne (n : Nat) (i : Fin (n - 1)) (p : Nat) : (minorIndex n i p).val ≠ p := by
  rw [minorIndex_val]
  split <;> omega

/-- Every index of the matrix other than `p` is `i < p ? i : i + 1` for some loop counter `i`,
when `p` is an index of the matrix. -/
theorem minorIndex_surj (n : Nat) (p : Nat) (k : Fin n) (hk : k.val ≠ p) (hp : p < n) :
    ∃ i : Fin (n - 1), minorIndex n i p = k := by
  have hkn := k.isLt
  by_cases h : k.val < p
  · refine ⟨⟨k.val, by omega⟩, Fin.ext ?_⟩
    rw [minorIndex_val]
    simp [h]
  · refine ⟨⟨k.val - 1, by omega⟩, Fin.ext ?_⟩
    rw [minorIndex_val]
    have : ¬ (k.val - 1 < p) := by omega
    simp only [this, if_false]
    omega

/-- The index `i < p ? i : i + 1` grows strictly with `i`. -/
theorem minorIndex_strictMono (n : Nat) (p : Nat) (i j : Fin (n - 1)) (hij : i.val < j.val) :
    (minorIndex n i p).val < (minorIndex n j p).val := by
  rw [minorIndex_val, minorIndex_val]
  split <;> split <;> omega

/-- The iterations of a loop below `k` as a left fold over the indices `k - 1`, ..., `0`. -/
theorem loopFrom_eq_foldl {n : Nat} {σ : Type} (body : Fin n → σ → σ) :
    ∀ (k : Nat) (h : k ≤ n) (s : σ),
      loopFrom n body k h s
        = List.foldl (fun s i => body i s) s ((List.finRange k).map (Fin.castLE h)).reverse := by
  intro k
  induction k with
  | zero => intro h s; simp [loopFrom]
  | succ k ih =>
    intro h s
    rw [loopFrom, ih, List.finRange_succ_last]
    simp only [List.map_append, List.map_map, List.map_cons, List.map_nil, List.reverse_append,
      List.reverse_cons, List.reverse_nil, List.nil_append, List.singleton_append,
      List.foldl_cons]
    rfl

/-- A full loop as a left fold over the indices in reverse order. -/
theorem loopDown_eq_foldl {n : Nat} {σ : Type} (body : Fin n → σ → σ) (s : σ) :
    loopDown n body s = List.foldl (fun s i => body i s) s (List.finRange n).reverse := by
  rw [loopDown, loopFrom_eq_foldl]
  congr 2
  have : (Fin.castLE (Nat.le_refl n) : Fin n → Fin n) = id := by funext i; rfl
  rw [this, List.map_id]

/-- A loop that maps a step under `Option` is the map of the loop. -/
theorem loopFrom_map {n : Nat} {σ : Type} (f : Fin n → σ → σ) :
    ∀ (k : Nat) (h : k ≤ n) (st : Option σ),
      loopFrom n (fun i st => Option.map (f i) st) k h st = Option.map (loopFrom n f k h) st := by
  intro k
  induction k with
  | zero => intro h st; cases st <;> rfl
  | succ k ih =>
    intro h st
    rw [loopFrom, ih]
    cases st <;> rfl

/-- The checked read of `get_minor` succeeds at every loop counter. -/
theorem mat.read_minorIndex {nrows ncols : Nat} {T : Type} (m : mat nrows ncols T)
    (row col : Nat) (i : Fin (nrows - 1)) (j : Fin (ncols - 1)) :
    mat.read m (if i.val < row then i.val else i.val + 1)
        (if j.val < col then j.val else j.val + 1)
      = some (m (minorIndex nrows i row) (minorIndex ncols j col)) := by
  have hi : (if i.val < row then i.val else i.val + 1) < nrows := (minorIndex nrows i row).isLt
  have hj : (if j.val < col then j.val else j.val + 1) < ncols := (minorIndex ncols j col).isLt
  rw [mat.read, dif_pos hi, vec.subscript, dif_pos hj]
  rfl

/-- No read of `get_minor` is out of bounds, whatever `row` and `col` are. -/
theorem mat.get_minor_checked_eq {nrows ncols : Nat} {T : Type} [Zero T] (m : mat nrows ncols T)
    (row col : Nat) :
    mat.get_minor_checked m row col = some (mat.get_minor m row col) := by
  have hin : ∀ i : Fin (nrows - 1),
      (fun (j : Fin (ncols - 1)) (st : Option (mat (nrows - 1) (ncols - 1) T)) =>
        st.bind (fun ret =>
          (mat.read m (if i.val < row then i.val else i.val + 1)
            (if j.val < col then j.val else j.val + 1)).map (fun a => mat.set ret i j a)))
      = (fun j st => Option.map
          (fun ret => mat.set ret i j (m (minorIndex nrows i row) (minorIndex ncols j col))) st) := by
    intro i
    funext j st
    rw [mat.read_minorIndex]
    cases st <;> rfl
  have hout : (fun (i : Fin (nrows - 1)) (st : Option (mat (nrows - 1) (ncols - 1) T)) =>
        loopDown (ncols - 1) (fun j st => st.bind (fun ret =>
          (mat.read m (if i.val < row then i.val else i.val + 1)
            (if j.val < col then j.val else j.val + 1)).map (fun a => mat.set ret i j a))) st)
      = (fun i st => Option.map (fun ret => loopDown (ncols - 1)
          (fun j ret => mat.set ret i j (m (minorIndex nrows i row) (minorIndex ncols j col)))
          ret) st) := by
    funext i st
    rw [hin i, loopDown, loopFrom_map]
    rfl
  rw [mat.get_minor_checked, hout, loopDown, loopFrom_map]
  rfl

/-- A `row` argument from `nrows - 1` on deletes the last row. -/
theorem mat.get_minor_clamp_row {nrows ncols : Nat} {T : Type} [Zero T] (m : mat nrows ncols T)
    (row col : Nat) (hrow : nrows - 1 ≤ row) :
    mat.get_minor m row col = mat.get_minor m (nrows - 1) col := by
  funext i j
  rw [mat.get_minor_apply, mat.get_minor_apply]
  have : minorIndex nrows i row = minorIndex nrows i (nrows - 1) := by
    apply Fin.ext
    have := i.isLt
    simp only [minorIndex]
    rw [if_pos (by omega), if_pos (by omega)]
  rw [this]

/-- A `col` argument from `ncols - 1` on deletes the last column. -/
theorem mat.get_minor_clamp_col {nrows ncols : Nat} {T : Type} [Zero T] (m : mat nrows ncols T)
    (row col : Nat) (hcol : ncols - 1 ≤ col) :
    mat.get_minor m row col = mat.get_minor m row (ncols - 1) := by
  funext i j
  rw [mat.get_minor_apply, mat.get_minor_apply]
  have : minorIndex ncols j col = minorIndex ncols j (ncols - 1) := by
    apply Fin.ext
    have := j.isLt
    simp only [minorIndex]
    rw [if_pos (by omega), if_pos (by omega)]
  rw [this]

/-- The permutation sum is the classical determinant. -/
theorem leibnizDet_eq_det {N : Nat} {T : Type} [CommRing T] (M : mat N N T) :
    leibnizDet M = Matrix.det (Matrix.of M) := by
  rw [leibnizDet, ← Matrix.det_transpose, Matrix.det_apply']
  rfl

/-! ## `embed`, `proj`, the product, minors and cofactors -/

/-- Claim C11: `embed` after `proj` reconstructs the leading components: for a vector `v` of
dimension `D`, every `N ≤ D`, every `M` and every `fill`, `proj<N>(v)` is defined and
`embed<M>(proj<N>(v), fill)[i]` is `v[i]` for every `i < min(M, N)` and `fill` for every
`i` with `N ≤ i < M`. -/
theorem embed_proj_reconstructs {T : Type} [Zero T] (D N M : Nat) (hND : N ≤ D) (v : vec D T)
    (fill : T) :
    ∃ p : vec N T, proj N v = some p
      ∧ (∀ (i : Fin M) (h : i.val < N),
          embed M p fill i = v ⟨i.val, lt_of_lt_of_le h hND⟩)
      ∧ (∀ i : Fin M, N ≤ i.val → embed M p fill i = fill) := by
  refine ⟨_, proj_of_le v hND, ?_, ?_⟩
  · intro i h
    rw [embed_apply, dif_pos h]
  · intro i h
    rw [embed_apply, dif_neg (by omega)]

/-- Claim C11 at `v = (1, 2, 3)`, `N = 2`, `M = 4`, `fill = 7`: the result is `(1, 2, 7, 7)`. -/
theorem embed_proj_reconstructs_witness :
    2 ≤ 3 ∧ (proj 2 (![1, 2, 3] : vec 3 ℤ)).map (fun p => embed 4 p 7) = some ![1, 2, 7, 7] := by
  refine ⟨by decide, ?_⟩
  obtain ⟨p, hp, h1, h2⟩ := embed_proj_reconstructs 3 2 4 (by decide) (![1, 2, 3] : vec 3 ℤ) 7
  rw [hp, Option.map_some']
  congr 1
  funext i
  fin_cases i
  · exact h1 0 (by decide)
  · exact h1 1 (by decide)
  · exact h2 2 (by decide)
  · exact h2 3 (by decide)

/-- Claim C12: the matrix product is the standard one: for an `R1×C1` matrix `A` and a
`C1×C2` matrix `B`, entry `(i, j)` of `A * B` is the dot product of row `i` of `A` with
`B.col(j)`, which is the sum over `k < C1` of `A[i][k] * B[k][j]`. -/
theorem mul_entry_is_row_dot_col {T : Type} [NonUnitalNonAssocSemiring T] (R1 C1 C2 : Nat)
    (A : mat R1 C1 T) (B : mat C1 C2 T) (i : Fin R1) (j : Fin C2) :
    mat.mul A B i j = vec.dot (A i) (mat.col B j)
      ∧ mat.mul A B i j = ∑ k : Fin C1, A i k * B k j := by
  refine ⟨?_, mat.mul_apply A B i j⟩
  rw [mat.mul, loopDown_fill]

/-- Claim C13: for an `R×C` matrix `M` with `R, C ≥ 2` and `row < R`, `col < C`,
`get_minor(row, col)` is the `(R-1)×(C-1)` matrix with
`result[i][j] = M[i < row ? i : i + 1][j < col ? j : j + 1]`: the source indices are never
`row` or `col`, reach every other row and column, and grow with `i` and `j`, so row `row` and
column `col` are deleted and the other entries keep their relative order.  The bounds
`R, C ≥ 2` of the claim are not needed. -/
theorem get_minor_deletes_row_and_col {T : Type} [Zero T] (R C : Nat) (M : mat R C T)
    (row col : Nat) (hrow : row < R) (hcol : col < C) :
    (∀ (i : Fin (R - 1)) (j : Fin (C - 1)),
        mat.get_minor M row col i j = M (minorIndex R i row) (minorIndex C j col)
          ∧ (minorIndex R i row).val = (if i.val < row then i.val else i.val + 1)
          ∧ (minorIndex C j col).val = (if j.val < col then j.val else j.val + 1)
          ∧ (minorIndex R i row).val ≠ row ∧ (minorIndex C j col).val ≠ col)
      ∧ (∀ k : Fin R, k.val ≠ row → ∃ i : Fin (R - 1), minorIndex R i row = k)
      ∧ (∀ l : Fin C, l.val ≠ col → ∃ j : Fin (C - 1), minorIndex C j col = l)
      ∧ (∀ i i2 : Fin (R - 1), i.val < i2.val →
          (minorIndex R i row).val < (minorIndex R i2 row).val)
      ∧ (∀ j j2 : Fin (C - 1), j.val < j2.val →
          (minorIndex C j col).val < (minorIndex C j2 col).val) := by
  refine ⟨fun i j => ⟨mat.get_minor_apply M row col i j, rfl, rfl, minorIndex_ne R i row,
      minorIndex_ne C j col⟩, ?_, ?_, ?_, ?_⟩
  · exact fun k hk => minorIndex_surj R row k hk hrow
  · exact fun l hl => minorIndex_surj C col l hl hcol
  · exact fun i i2 h => minorIndex_strictMono R row i i2 h
  · exact fun j j2 h => minorIndex_strictMono C col j j2 h

/-- Claim C13 at the `3×3` integer matrix with rows `(1,2,3)`, `(4,5,6)`, `(7,8,9)` and
`row = col = 1`: the minor is `{{1, 3}, {7, 9}}`. -/
theorem get_minor_deletes_row_and_col_witness :
    (1 < 3 ∧ 1 < 3)
      ∧ mat.get_minor (![![1, 2, 3], ![4, 5, 6], ![7, 8, 9]] : mat 3 3 ℤ) 1 1
          = ![![1, 3], ![7, 9]]
      ∧ ∀ (i : Fin (3 - 1)) (j : Fin (3 - 1)),
          mat.get_minor (![![1, 2, 3], ![4, 5, 6], ![7, 8, 9]] : mat 3 3 ℤ) 1 1 i j
            = (![![1, 2, 3], ![4, 5, 6], ![7, 8, 9]] : mat 3 3 ℤ) (minorIndex 3 i 1)
                (minorIndex 3 j 1) :=
  ⟨⟨by decide, by decide⟩, by decide,
    fun i j => ((get_minor_deletes_row_and_col 3 3
      (![![1, 2, 3], ![4, 5, 6], ![7, 8, 9]] : mat 3 3 ℤ) 1 1 (by decide) (by decide)).1 i j).1⟩

/-- Claim C14: `adjugate()` returns the untransposed matrix of cofactors: for a square
`N×N` matrix `M` with `N ≥ 2` and all `i, j < N`, `M.adjugate()[i][j]` is `M.cofactor(i, j)`,
which is `M.get_minor(i, j).det() * (-1)^(i + j)`. -/
theorem adjugate_entry_is_cofactor {T : Type} [Ring T] (N : Nat) (hN : 2 ≤ N) (M : mat N N T)
    (i j : Fin N) :
    mat.adjugate M hN i j = mat.cofactor M hN i.val j.val
      ∧ mat.cofactor M hN i.val j.val
          = mat.det (mat.get_minor M i.val j.val) (Nat.sub_pos_of_lt hN)
              * (-1) ^ (i.val + j.val) := by
  refine ⟨mat.adjugate_apply M hN i j, ?_⟩
  rw [mat.cofactor, sign_eq_neg_one_pow]

/-- Claim C14 at the integer matrix `{{1, 2}, {3, 4}}`: the matrix of cofactors is
`{{4, -3}, {-2, 1}}`. -/
theorem adjugate_entry_is_cofactor_witness :
    2 ≤ 2
      ∧ mat.adjugate (![![1, 2], ![3, 4]] : mat 2 2 ℤ) (Nat.le_refl 2) = ![![4, -3], ![-2, 1]]
      ∧ mat.adjugate (![![1, 2], ![3, 4]] : mat 2 2 ℤ) (Nat.le_refl 2) 0 1
          = mat.cofactor (![![1, 2], ![3, 4]] : mat 2 2 ℤ) (Nat.le_refl 2) 0 1 :=
  ⟨by decide, by decide,
    (adjugate_entry_is_cofactor 2 (Nat.le_refl 2) (![![1, 2], ![3, 4]] : mat 2 2 ℤ) 0 1).1⟩

/-- Claim C15: `setcol` writes exactly one column: after `M.setcol(j, v)` the column
`M.col(j)` is `v`, and every entry `M[i][k]` with `k ≠ j` is unchanged. -/
theorem setcol_writes_one_col {T : Type} [Zero T] (R C : Nat) (M : mat R C T) (j : Fin C)
    (v : vec R T) :
    mat.col (mat.setcol M j v) j = v
      ∧ ∀ (i : Fin R) (k : Fin C), k ≠ j → mat.setcol M j v i k = M i k := by
  constructor
  · funext i
    rw [mat.col_apply, mat.setcol_apply, if_pos rfl]
  · intro i k hk
    rw [mat.setcol_apply, if_neg hk]

/-! ## Subscripts and the order of accumulation -/

/-- Claim C16: indexed access on a vector of dimension `N` (generic, and the 2-, 3- and
4-component specialisations) fails its assertion exactly when the index `i` satisfies
`i ≥ N`; when `i < N` it returns the `i`-th component, which for the specialisations is the
named field: `v[0]` is `x`, `v[1]` is `y`, `v[2]` is `z`, `v[3]` is `w`. -/
theorem subscript_fails_iff_out_of_range {T : Type} (N : Nat) (v : vec N T) (v2 : vec2 T)
    (v3 : vec3 T) (v4 : vec4 T) (i : Nat) :
    ((vec.subscript v i = none ↔ N ≤ i) ∧ ∀ h : i < N, vec.subscript v i = some (v ⟨i, h⟩))
      ∧ ((vec2.subscript v2 i = none ↔ 2 ≤ i)
          ∧ vec2.subscript v2 0 = some v2.x ∧ vec2.subscript v2 1 = some v2.y)
      ∧ ((vec3.subscript v3 i = none ↔ 3 ≤ i)
          ∧ vec3.subscript v3 0 = some v3.x ∧ vec3.subscript v3 1 = some v3.y
          ∧ vec3.subscript v3 2 = some v3.z
          ∧ ∀ k : Fin 3, vec3.subscript v3 k.val = some (v3.index k))
      ∧ ((vec4.subscript v4 i = none ↔ 4 ≤ i)
          ∧ vec4.subscript v4 0 = some v4.x ∧ vec4.subscript v4 1 = some v4.y
          ∧ vec4.subscript v4 2 = some v4.z ∧ vec4.subscript v4 3 = some v4.w) := by
  refine ⟨⟨?_, ?_⟩, ⟨?_, rfl, rfl⟩, ⟨?_, rfl, rfl, rfl, ?_⟩, ⟨?_, rfl, rfl, rfl, rfl⟩⟩
  · unfold vec.subscript
    split <;> simp <;> omega
  · intro h
    rw [vec.subscript, dif_pos h]
  · unfold vec2.subscript
    split <;> simp <;> omega
  · unfold vec3.subscript
    split <;> simp <;> omega
  · intro k
    rw [vec3.subscript, if_pos k.isLt]
    rfl
  · unfold vec4.subscript
    split <;> simp <;> omega

/-- Claim C17: the dot product `lhs * rhs` is the sum of the `lhs[i] * rhs[i]` accumulated from
`T()` in reverse index order, index `N - 1` first and index `0` last; no law of `+` is used.
For three components it is `((0 + x2*y2) + x1*y1) + x0*y0`, and in a semiring it is the sum
over all `i < N`. -/
theorem dot_accumulates_in_reverse_order {T : Type} [Zero T] [Add T] [Mul T] {S : Type}
    [NonUnitalNonAssocSemiring S] (N : Nat) (lhs rhs : vec N T) (a b : vec N S)
    (x0 x1 x2 y0 y1 y2 : T) :
    vec.dot lhs rhs
        = List.foldl (fun ret i => ret + lhs i * rhs i) 0 (List.finRange N).reverse
      ∧ vec.dot (![x0, x1, x2] : vec 3 T) ![y0, y1, y2] = ((0 + x2 * y2) + x1 * y1) + x0 * y0
      ∧ vec.dot a b = ∑ i : Fin N, a i * b i :=
  ⟨loopDown_eq_foldl _ _, rfl, vec.dot_eq_sum a b⟩

/-! ## The determinant as a permutation sum, and the adjugate identity -/

/-- Claim C18: the recursive `det()` agrees with the Leibniz determinant: for every `N ≥ 1`
and every `N×N` matrix `M` over a commutative ring, `M.det()` is the sum over the permutations
`p` of `sign(p)` times the product of the `M[i][p(i)]`; consequently
`M.transpose().det()` is `M.det()`. -/
theorem det_eq_leibnizDet {T : Type} [CommRing T] (N : Nat) (hN : 1 ≤ N) (M : mat N N T) :
    mat.det M hN = leibnizDet M ∧ mat.det (mat.transpose M) hN = mat.det M hN := by
  obtain ⟨n, rfl⟩ : ∃ n, N = n + 1 := ⟨N - 1, by omega⟩
  constructor
  · rw [mat.det_eq_classical, leibnizDet_eq_det]
  · rw [mat.det_eq_classical, mat.det_eq_classical, ← Matrix.det_transpose (Matrix.of M)]
    congr 1
    ext i j
    exact mat.transpose_apply M i j

/-- Claim C18 at the integer matrix `{{1, 2}, {3, 4}}`. -/
theorem det_eq_leibnizDet_witness :
    1 ≤ 2
      ∧ mat.det (![![1, 2], ![3, 4]] : mat 2 2 ℤ) Nat.zero_lt_two
          = leibnizDet (![![1, 2], ![3, 4]] : mat 2 2 ℤ)
      ∧ mat.det (mat.transpose (![![1, 2], ![3, 4]] : mat 2 2 ℤ)) Nat.zero_lt_two
          = mat.det (![![1, 2], ![3, 4]] : mat 2 2 ℤ) Nat.zero_lt_two :=
  ⟨by decide, det_eq_leibnizDet 2 (by decide) _⟩

/-- Claim C19: the cofactor matrix of `adjugate()` satisfies the division-free adjugate
identity in any commutative ring: for every `N ≥ 2` and every `N×N` matrix `M`, entry `(i, j)`
of `M * M.adjugate().transpose()` is `M.det()` times entry `(i, j)` of `identity()`, that is
`M.det()` when `i = j` and `0` otherwise. -/
theorem mul_adjugate_transpose_eq_det {T : Type} [CommRing T] (N : Nat) (hN : 2 ≤ N)
    (M : mat N N T) (i j : Fin N) :
    mat.mul M (mat.transpose (mat.adjugate M hN)) i j
        = mat.det M (Nat.zero_lt_of_lt hN) * mat.identity N N i j
      ∧ mat.mul M (mat.transpose (mat.adjugate M hN)) i j
        = (if i = j then mat.det M (Nat.zero_lt_of_lt hN) else 0) := by
  obtain ⟨n, rfl⟩ : ∃ n, N = n + 2 := ⟨N - 2, by omega⟩
  have h := congrFun (congrFun (Matrix.mul_adjugate (Matrix.of M)) i) j
  rw [Matrix.mul_apply] at h
  simp only [Matrix.of_apply, Matrix.smul_apply, Matrix.one_apply, smul_eq_mul] at h
  have key : mat.mul M (mat.transpose (mat.adjugate M hN)) i j
      = mat.det M (Nat.zero_lt_of_lt hN) * (if i = j then 1 else 0) := by
    rw [mat.mul_apply, mat.det_eq_classical, ← h]
    refine Finset.sum_congr rfl (fun k _ => ?_)
    rw [mat.transpose_apply, mat.adjugate_apply, mat.cofactor_eq_adjugate]
  constructor
  · rw [key, mat.identity_apply]
    simp only [Fin.ext_iff]
  · rw [key]
    split <;> simp

/-- Claim C19 at the integer matrix with rows `(2,0,1)`, `(1,3,2)`, `(1,1,4)`, of
determinant `18`. -/
theorem mul_adjugate_transpose_eq_det_witness :
    2 ≤ 3
      ∧ mat.det (![![2, 0, 1], ![1, 3, 2], ![1, 1, 4]] : mat 3 3 ℤ) (Nat.succ_pos 2) = 18
      ∧ mat.mul (![![2, 0, 1], ![1, 3, 2], ![1, 1, 4]] : mat 3 3 ℤ)
          (mat.transpose (mat.adjugate ![![2, 0, 1], ![1, 3, 2], ![1, 1, 4]]
            (Nat.succ_lt_succ (Nat.succ_pos 1)))) 0 0
          = mat.det (![![2, 0, 1], ![1, 3, 2], ![1, 1, 4]] : mat 3 3 ℤ) (Nat.succ_pos 2)
            * mat.identity 3 3 0 0 :=
  ⟨by decide, by decide,
    (mul_adjugate_transpose_eq_det 3 (by decide)
      (![![2, 0, 1], ![1, 3, 2], ![1, 1, 4]] : mat 3 3 ℤ) 0 0).1⟩

/-! ## Out-of-range arguments of `get_minor` -/

/-- Claim C20: `get_minor` never triggers an index assertion, even for out-of-range
arguments: for an `R×C` matrix `M` with `R, C ≥ 1` and any `row`, `col`, every index used is
in bounds (the checked minor has a value, the unchecked one), and a `row ≥ R - 1`
(a `col ≥ C - 1`) gives the same result as `row = R - 1` (`col = C - 1`): the rows
`0 .. R - 2` (the columns `0 .. C - 2`) are kept and the last one is deleted. -/
theorem get_minor_never_out_of_bounds {T : Type} [Zero T] (R C : Nat) (_hR : 1 ≤ R)
    (_hC : 1 ≤ C) (M : mat R C T) (row col : Nat) :
    mat.get_minor_checked M row col = some (mat.get_minor M row col)
      ∧ (∀ i : Fin (R - 1), (if i.val < row then i.val else i.val + 1) < R)
      ∧ (∀ j : Fin (C - 1), (if j.val < col then j.val else j.val + 1) < C)
      ∧ (R - 1 ≤ row → mat.get_minor M row col = mat.get_minor M (R - 1) col
          ∧ ∀ i : Fin (R - 1), (minorIndex R i row).val = i.val)
      ∧ (C - 1 ≤ col → mat.get_minor M row col = mat.get_minor M row (C - 1)
          ∧ ∀ j : Fin (C - 1), (minorIndex C j col).val = j.val) := by
  refine ⟨mat.get_minor_checked_eq M row col, fun i => (minorIndex R i row).isLt,
    fun j => (minorIndex C j col).isLt, fun h => ⟨mat.get_minor_clamp_row M row col h, ?_⟩,
    fun h => ⟨mat.get_minor_clamp_col M row col h, ?_⟩⟩
  · intro i
    have := i.isLt
    rw [minorIndex_val, if_pos (by omega)]
  · intro j
    have := j.isLt
    rw [minorIndex_val, if_pos (by omega)]

/-- Claim C20 at the `3×3` integer matrix with rows `(1,2,3)`, `(4,5,6)`, `(7,8,9)` and the
out-of-range arguments `row = 7`, `col = 100`: the minor is `{{1, 2}, {4, 5}}`. -/
theorem get_minor_never_out_of_bounds_witness :
    (1 ≤ 3 ∧ 1 ≤ 3)
      ∧ mat.get_minor (![![1, 2, 3], ![4, 5, 6], ![7, 8, 9]] : mat 3 3 ℤ) 7 100
          = ![![1, 2], ![4, 5]]
      ∧ mat.get_minor_checked (![![1, 2, 3], ![4, 5, 6], ![7, 8, 9]] : mat 3 3 ℤ) 7 100
          = some (mat.get_minor (![![1, 2, 3], ![4, 5, 6], ![7, 8, 9]] : mat 3 3 ℤ) 7 100) :=
  ⟨⟨by decide, by decide⟩, by decide,
    (get_minor_never_out_of_bounds 3 3 (by decide) (by decide)
      (![![1, 2, 3], ![4, 5, 6], ![7, 8, 9]] : mat 3 3 ℤ) 7 100).1⟩

end SoftRender
